import Mathlib

/-!
# Verification of the video-digest transformation core

Shallow embedding of the transcript/frame/JSON-repair pipeline of the
`videodigest` package, together with proofs of the specified properties.

Python `float` time values are modelled as exact rationals (`ℚ`); a window
parameter that may be `+infinity` is modelled as `WithTop ℚ`.  Python `int`
is modelled as `ℤ` (or `ℕ` where the source only ever sees naturals), and
Python strings as `String` / `List Char`.
-/
namespace VideoDigest
/-- `Segment` from `videodigest/transcriber.py`: a time-stamped unit of
transcript text. -/
structure Segment where
  start : ℚ
  «end» : ℚ
  text : String
deriving DecidableEq, Repr
namespace Segment
/-- `Segment.duration` property. -/
def duration (s : Segment) : ℚ := s.end - s.start
end Segment

/-! ## TextChunker: `_chunk_transcript` (`videodigest/analyzer.py`) -/
/-- Per-segment cost used by `_chunk_transcript`:
`seg_chars = len(seg.text) + 12`. -/
def segChars (s : Segment) : ℤ := (s.text.length : ℤ) + 12
/-- The body of the `for seg in segments` loop of `_chunk_transcript`,
carrying the `current` accumulator and the running `current_chars` count.
After the loop the non-empty accumulator is flushed. -/
def chunkLoop (maxChars : ℤ) (current : List Segment) (currentChars : ℤ) :
    List Segment → List (List Segment)
  | [] => if current = [] then [] else [current]
  | seg :: rest =>
      if currentChars + segChars seg > maxChars ∧ current ≠ [] then
        current :: chunkLoop maxChars [seg] (segChars seg) rest
      else
        chunkLoop maxChars (current ++ [seg]) (currentChars + segChars seg) rest
/-- `_chunk_transcript(segments, max_chars)`. -/
def chunk_transcript (segments : List Segment) (maxChars : ℤ) : List (List Segment) :=
  chunkLoop maxChars [] 0 segments
/-- Total cost of a chunk: sum of `len(text) + 12` over its segments. -/
def chunkCost (c : List Segment) : ℤ := (c.map segChars).sum
/-- The space-join `" ".join(texts)` used when an open chunk is emitted. -/
def joinSpace (texts : List String) : String := String.intercalate " " texts
/-- The body of the `for seg in segments[1:]` loop of `merge_segments`,
carrying `chunk_start`, `chunk_end` and `chunk_texts`; the final open chunk
is always emitted.  The window is a `WithTop ℚ` so that `+infinity` (Python
`float("inf")`) is representable. -/
def mergeLoop (w : WithTop ℚ) (chunkStart chunkEnd : ℚ) (chunkTexts : List String) :
    List Segment → List Segment
  | [] => [⟨chunkStart, chunkEnd, joinSpace chunkTexts⟩]
  | seg :: rest =>
      if ((seg.end - chunkStart : ℚ) : WithTop ℚ) ≤ w then
        mergeLoop w chunkStart seg.end (chunkTexts ++ [seg.text]) rest
      else
        ⟨chunkStart, chunkEnd, joinSpace chunkTexts⟩ ::
          mergeLoop w seg.start seg.end [seg.text] rest
/-- `merge_segments(segments, window_seconds)`. -/
def merge_segments (segments : List Segment) (w : WithTop ℚ) : List Segment :=
  match segments with
  | [] => []
  | s :: rest => mergeLoop w s.start s.end [s.text] rest
/-- Modelled from the spec: the greedy single-pass reference algorithm of
§4.2, kept at the level of *groups of absorbed segments*: the open group
holds its first segment and the later segments it absorbed; a subsequent
segment is absorbed iff `segment.end - openChunk.start <= windowSeconds`,
otherwise the open group is emitted and a new one starts at that segment;
the final open group is always emitted. -/
def greedyLoop (w : WithTop ℚ) (first : Segment) (acc : List Segment) :
    List Segment → List (List Segment)
  | [] => [first :: acc]
  | seg :: rest =>
      if ((seg.end - first.start : ℚ) : WithTop ℚ) ≤ w then
        greedyLoop w first (acc ++ [seg]) rest
      else
        (first :: acc) :: greedyLoop w seg [] rest
/-- Modelled from the spec: the greedy grouping of an ordered segment list;
the open chunk starts at the first segment, and empty input yields empty
output. -/
def greedyGroups (segments : List Segment) (w : WithTop ℚ) : List (List Segment) :=
  match segments with
  | [] => []
  | s :: rest => greedyLoop w s [] rest
/-- Modelled from the spec: an emitted chunk has `start` equal to its first
absorbed segment's start, `end` equal to its last absorbed segment's end,
and `text` equal to the space-joined concatenation of its absorbed
segments' texts. -/
def chunkOf (g : List Segment) : Segment :=
  { start := (g.headD ⟨0, 0, ""⟩).start
    «end» := (g.getLastD ⟨0, 0, ""⟩).end
    text := joinSpace (g.map Segment.text) }
/-- Number of chunks the greedy merge emits, as a function of the open
chunk's start time and the remaining segments. -/
def mergeCount (w : WithTop ℚ) (chunkStart : ℚ) : List Segment → ℕ
  | [] => 1
  | seg :: rest =>
      if ((seg.end - chunkStart : ℚ) : WithTop ℚ) ≤ w then
        mergeCount w chunkStart rest
      else
        1 + mergeCount w seg.start rest

/-! ## FrameSampler / FrameDeduplicator (`videodigest/frame_extractor.py`) -/
/-- Perceptual fingerprints are modelled as bit lists; `hamming a b` is the
Hamming distance `new_hash - h` computed by `imagehash` (count of
differing bits). -/
def hamming (a b : List Bool) : ℕ := (List.zipWith bne a b).count true
/-- `_is_duplicate(new_hash, kept_hashes, threshold)`: a `None` hash is
never judged a duplicate; otherwise the frame is a duplicate iff some kept
non-`None` hash lies at Hamming distance `< threshold`. -/
def is_duplicate (newHash : Option (List Bool)) (keptHashes : List (Option (List Bool)))
    (threshold : ℕ) : Bool :=
  match newHash with
  | none => false
  | some h =>
      keptHashes.any fun kh =>
        match kh with
        | none => false
        | some k => decide (hamming h k < threshold)
/-- One candidate of the `extract_frames` loop.  `grab = none` models
`_extract_single_frame` failing (candidate skipped); `grab = some none`
models a frame whose `_phash` computation returned `None`; `grab = some
(some h)` a frame with fingerprint `h`.  `idx` records the candidate's
segment index so that order statements are meaningful. -/
structure Candidate where
  idx : ℕ
  grab : Option (Option (List Bool))
deriving DecidableEq, Repr
/-- The `for idx in candidate_indices` loop of `extract_frames`, carrying
`kept_hashes` and `len(kept_frames)`; returns the kept candidates in
processing order. -/
def extractLoop (threshold maxFrames : ℕ) (keptHashes : List (Option (List Bool)))
    (keptCount : ℕ) : List Candidate → List Candidate
  | [] => []
  | c :: rest =>
      if maxFrames ≤ keptCount then []
      else
        match c.grab with
        | none => extractLoop threshold maxFrames keptHashes keptCount rest
        | some ph =>
            if is_duplicate ph keptHashes threshold then
              extractLoop threshold maxFrames keptHashes keptCount rest
            else
              c :: extractLoop threshold maxFrames (keptHashes ++ [ph]) (keptCount + 1) rest
/-- The dedup loop of `extract_frames(...)`; ffmpeg frame extraction and
pHash computation are modelled by each candidate's `grab` outcome. -/
def extract_frames (threshold maxFrames : ℕ) (candidates : List Candidate) : List Candidate :=
  extractLoop threshold maxFrames [] 0 candidates
/-- Modelled from the claim/spec (§4.5): processing candidates in order,
keep a fingerprinted frame iff its Hamming distance to *every* previously
kept fingerprint is `>= threshold`; keep a fingerprint-less frame
unconditionally; skip failed extractions; stop once `maxFrames` frames are
kept.  `keptFps` holds the previously kept fingerprints. -/
def dedupSpec (threshold maxFrames : ℕ) (keptFps : List (List Bool)) (keptCount : ℕ) :
    List Candidate → List Candidate
  | [] => []
  | c :: rest =>
      if maxFrames ≤ keptCount then []
      else
        match c.grab with
        | none => dedupSpec threshold maxFrames keptFps keptCount rest
        | some none => c :: dedupSpec threshold maxFrames keptFps (keptCount + 1) rest
        | some (some h) =>
            if keptFps.all fun k => decide (threshold ≤ hamming h k) then
              c :: dedupSpec threshold maxFrames (keptFps ++ [h]) (keptCount + 1) rest
            else
              dedupSpec threshold maxFrames keptFps keptCount rest
/-- `_select_candidates(segments, max_candidates)` as a function of
`n = len(segments)`.  `none` models the `ZeroDivisionError` raised by
`step = n / max_candidates` when `max_candidates == 0` and `n > 0`;
Python's real-valued `step` is modelled as the exact rational `n / max`,
and the truncation `int(i * step)` (nonnegative here) as the floor. -/
def select_candidates (n maxCandidates : ℕ) : Option (List ℕ) :=
  if n ≤ maxCandidates then some (List.range n)
  else if maxCandidates = 0 then none
  else some ((List.range maxCandidates).map
      fun i : ℕ => ⌊(i : ℚ) * ((n : ℚ) / (maxCandidates : ℚ))⌋₊)
/-- The list returned by `_select_candidates` (empty when the call raises). -/
def selOut (n maxCandidates : ℕ) : List ℕ := (select_candidates n maxCandidates).getD []

/-! ## ResponseRepair: `_escape_json_strings` / `_parse_json_response`
(`videodigest/analyzer.py`) -/
/-- The whitespace set `" \t\r\n"` skipped by the quote lookahead of
`_escape_json_strings` (also exactly the RFC 8259 JSON whitespace set). -/
def laWsChar (c : Char) : Bool := c == ' ' || c == '\t' || c == '\r' || c == '\n'
/-- The lookahead of `_escape_json_strings`: skip whitespace from position
`i+1`; the quote closes the string iff end-of-input is reached or the next
character is one of `, } ] :`. -/
def laOk (rest : List Char) : Bool :=
  match rest.dropWhile laWsChar with
  | [] => true
  | c :: _ => c == ',' || c == '}' || c == ']' || c == ':'
/-- The character scan of `_escape_json_strings`, with the `in_string`
flag as first argument.  Inside a string: a backslash passes itself and
the next character through unchanged (a trailing lone backslash is passed
through as-is); a quote closes the string iff the lookahead succeeds and
is otherwise rewritten to an escaped quote; literal newline / carriage
return / tab are rewritten to their two-character escapes. -/
def escLoop : Bool → List Char → List Char
  | _, [] => []
  | false, c :: rest => c :: escLoop (c == '"') rest
  | true, '\\' :: [] => ['\\']
  | true, '\\' :: d :: rest => '\\' :: d :: escLoop true rest
  | true, c :: rest =>
      if c = '"' then
        if laOk rest then '"' :: escLoop false rest
        else '\\' :: '"' :: escLoop true rest
      else if c = '\n' then '\\' :: 'n' :: escLoop true rest
      else if c = '\r' then '\\' :: 'r' :: escLoop true rest
      else if c = '\t' then '\\' :: 't' :: escLoop true rest
      else c :: escLoop true rest
/-- `_escape_json_strings(raw)`. -/
def escape_json_strings (raw : String) : String := ⟨escLoop false raw.data⟩
/-- The whitespace set stripped by Python's `str.strip()` (ASCII part;
the rarer Unicode whitespace code points never occur in the inputs
considered here). -/
def pyWsChar (c : Char) : Bool :=
  c == ' ' || c == '\t' || c == '\n' || c == '\r' || c == '\x0b' || c == '\x0c'
/-- Python `raw.strip()`. -/
def pyStrip (cs : List Char) : List Char :=
  ((cs.dropWhile pyWsChar).reverse.dropWhile pyWsChar).reverse
/-- The backtick character (of markdown code fences). -/
def btick : Char := Char.ofNat 96
/-- Python `str.splitlines()` restricted to the common line terminators
LF, CRLF and CR (Python also splits on rarer control separators, which do
not occur in the inputs considered here). -/
def splitlinesAux (cur : List Char) : List Char → List (List Char)
  | [] => if cur.isEmpty then [] else [cur.reverse]
  | '\r' :: '\n' :: rest => cur.reverse :: splitlinesAux [] rest
  | '\r' :: rest => cur.reverse :: splitlinesAux [] rest
  | '\n' :: rest => cur.reverse :: splitlinesAux [] rest
  | c :: rest => splitlinesAux (c :: cur) rest
/-- Python `str.splitlines()` (see `splitlinesAux`). -/
def splitlines (cs : List Char) : List (List Char) := splitlinesAux [] cs
/-- `"\n".join(raw.splitlines()[1:])` — dropping the opening fence line. -/
def dropFirstLine (cs : List Char) : List Char :=
  List.intercalate ['\n'] ((splitlines cs).drop 1)
/-- Index of the last occurrence of `"``` "`.trim in a character list
(Python `raw.rfind("```")`), if any. -/
def lastFence : List Char → Option ℕ
  | [] => none
  | c :: rest =>
      match lastFence rest with
      | some i => some (i + 1)
      | none =>
          if c = btick ∧ rest.take 2 = [btick, btick] then some 0 else none
/-- `if raw.startswith("```"): raw = "\n".join(raw.splitlines()[1:])`. -/
def stripFenceStart (r : List Char) : List Char :=
  if r.take 3 = [btick, btick, btick] then dropFirstLine r else r
/-- `if raw.endswith("```"): raw = raw[: raw.rfind("```")]` (a miss of
`rfind`, impossible after the `endswith` test, would yield `raw[:-1]`). -/
def stripFenceEnd (r : List Char) : List Char :=
  if r.reverse.take 3 = [btick, btick, btick] then
    (match lastFence r with
     | some k => r.take k
     | none => r.dropLast)
  else r
/-- The fence-stripping and repair stages of `_parse_json_response(raw)`,
i.e. everything before the final `json.loads`: strip whitespace; if the
text starts with a triple-backtick fence drop the first line; if it ends
with one drop everything from the last fence onward; then repair strings. -/
def parse_json_response_pre (raw : List Char) : List Char :=
  escLoop false (stripFenceEnd (stripFenceStart (pyStrip raw)))
/-- A character that may stand unescaped in a JSON string body: anything
but the quote, the backslash and literal control whitespace. -/
def safeChar (c : Char) : Bool :=
  !(c == '"' || c == '\\' || c == '\n' || c == '\r' || c == '\t')
/-- Modelled from the spec: a JSON string body is a sequence of escape
pairs (backslash followed by any character) and safe characters.  Every
RFC 8259 string body is of this form. -/
def strBodyOk : List Char → Bool
  | [] => true
  | '\\' :: [] => false
  | '\\' :: _ :: rest' => strBodyOk rest'
  | c :: rest => safeChar c && strBodyOk rest
/-- Modelled from the spec: the JSON number alphabet (a superset of RFC
8259 numbers is accepted; only the alphabet matters for the repair-pass
statements). -/
def numChar (c : Char) : Bool :=
  c.isDigit || c == '-' || c == '+' || c == '.' || c == 'e' || c == 'E'
/-- All characters of `w` are JSON whitespace. -/
abbrev AllWs (w : List Char) : Prop := ∀ c ∈ w, laWsChar c = true
/-- Modelled from the spec: a relaxed JSON grammar.  `JGram 0 cs` says
`cs` is a serialized JSON value, `JGram 1 cs` a comma-separated list of
array elements (each value surrounded by optional whitespace), `JGram 2
cs` a comma-separated list of object members.  The number and string
rules are relaxed just enough that every syntactically valid RFC 8259
document is derivable. -/
inductive JGram : ℕ → List Char → Prop where
  | jnull : JGram 0 ('n' :: 'u' :: 'l' :: 'l' :: [])
  | jtrue : JGram 0 ('t' :: 'r' :: 'u' :: 'e' :: [])
  | jfalse : JGram 0 ('f' :: 'a' :: 'l' :: 's' :: 'e' :: [])
  | jnum (cs : List Char) : cs ≠ [] → (∀ c ∈ cs, numChar c = true) → JGram 0 cs
  | jstr (b : List Char) : strBodyOk b = true → JGram 0 ('"' :: (b ++ ['"']))
  | jarrE (w : List Char) : AllWs w → JGram 0 ('[' :: (w ++ [']']))
  | jarr (es : List Char) : JGram 1 es → JGram 0 ('[' :: (es ++ [']']))
  | jobjE (w : List Char) : AllWs w → JGram 0 ('{' :: (w ++ ['}']))
  | jobj (ms : List Char) : JGram 2 ms → JGram 0 ('{' :: (ms ++ ['}']))
  | elemsLast (w1 v w2 : List Char) : AllWs w1 → JGram 0 v → AllWs w2 →
      JGram 1 (w1 ++ v ++ w2)
  | elemsMore (w1 v w2 es : List Char) : AllWs w1 → JGram 0 v → AllWs w2 →
      JGram 1 es → JGram 1 (w1 ++ v ++ w2 ++ (',' :: es))
  | memLast (w1 b w2 w3 v w4 : List Char) : AllWs w1 → strBodyOk b = true →
      AllWs w2 → AllWs w3 → JGram 0 v → AllWs w4 →
      JGram 2 (w1 ++ ('"' :: (b ++ ['"'])) ++ w2 ++ (':' :: (w3 ++ v ++ w4)))
  | memMore (w1 b w2 w3 v w4 ms : List Char) : AllWs w1 → strBodyOk b = true →
      AllWs w2 → AllWs w3 → JGram 0 v → AllWs w4 → JGram 2 ms →
      JGram 2 (w1 ++ ('"' :: (b ++ ['"'])) ++ w2 ++
        (':' :: (w3 ++ v ++ w4)) ++ (',' :: ms))
/-- A serialized JSON value. -/
def JVal (cs : List Char) : Prop := JGram 0 cs
/-- A syntactically valid JSON document: a value surrounded by optional
whitespace (RFC 8259 `JSON-text = ws value ws`). -/
def JText (cs : List Char) : Prop :=
  ∃ w1 v w2, AllWs w1 ∧ JVal v ∧ AllWs w2 ∧ cs = w1 ++ v ++ w2
/-- The compositionality statement proved about `escLoop` by induction
over `JGram` derivations: a serialized value passes through the repair
scan unchanged whenever the quote lookahead succeeds on what follows it;
element and member lists do so in front of their closing bracket. -/
def PassMotive (k : ℕ) (cs : List Char) : Prop :=
  match k with
  | 0 => ∀ ds, laOk ds = true → escLoop false (cs ++ ds) = cs ++ escLoop false ds
  | 1 => ∀ ds, escLoop false (cs ++ (']' :: ds)) = cs ++ escLoop false (']' :: ds)
  | 2 => ∀ ds, escLoop false (cs ++ ('}' :: ds)) = cs ++ escLoop false ('}' :: ds)
  | _ + 3 => True
/-- Modelled from the spec: decoding of the JSON single-character escapes
(sufficient for the string values appearing in the scenarios; `\uXXXX`
escapes do not occur there). -/
def jsonUnescape : List Char → List Char
  | [] => []
  | '\\' :: c :: rest =>
      (if c = 'n' then '\n'
       else if c = 't' then '\t'
       else if c = 'r' then '\r'
       else c) :: jsonUnescape rest
  | c :: rest => c :: jsonUnescape rest

/-! ## SubtitleParser: `parse_srt` (`videodigest/transcriber.py`) -/
/-- `re.split(r"\n\x7b2,\x7d", s)`: split on runs of two or more LF
characters; the Boolean state records being inside a separator run. -/
def sbAux : Bool → List Char → List Char → List (List Char)
  | _, cur, [] => [cur.reverse]
  | false, cur, '\n' :: '\n' :: rest => cur.reverse :: sbAux true [] rest
  | true, cur, '\n' :: rest => sbAux true cur rest
  | _, cur, c :: rest => sbAux false (c :: cur) rest
/-- The block split of `parse_srt`. -/
def splitBlocks (cs : List Char) : List (List Char) := sbAux false [] cs
/-- One side of an SRT/VTT timing line. -/
structure TimeStamp where
  h : ℕ
  m : ℕ
  s : ℕ
  ms : ℕ
deriving DecidableEq, Repr
/-- `_to_seconds`: `h*3600 + m*60 + s + ms/1000`. -/
def toSeconds (t : TimeStamp) : ℚ :=
  (t.h : ℚ) * 3600 + (t.m : ℚ) * 60 + (t.s : ℚ) + (t.ms : ℚ) / 1000
/-- Exactly two ASCII digits (regex `\d\x7b2\x7d`). -/
def digit2 : List Char → Option (ℕ × List Char)
  | a :: b :: rest =>
      if a.isDigit && b.isDigit then
        some (10 * (a.toNat - 48) + (b.toNat - 48), rest)
      else none
  | _ => none
/-- Exactly three ASCII digits (regex `\d\x7b3\x7d`). -/
def digit3 : List Char → Option (ℕ × List Char)
  | a :: b :: c :: rest =>
      if a.isDigit && b.isDigit && c.isDigit then
        some (100 * (a.toNat - 48) + 10 * (b.toNat - 48) + (c.toNat - 48), rest)
      else none
  | _ => none
/-- One expected literal character. -/
def expectChar (c : Char) : List Char → Option (List Char)
  | x :: rest => if x = c then some rest else none
  | [] => none
/-- The `[,.]` millisecond separator (SRT comma or VTT dot). -/
def expectSep : List Char → Option (List Char)
  | x :: rest => if x = ',' || x = '.' then some rest else none
  | [] => none
/-- Regex `\s` (ASCII part). -/
def reWsChar (c : Char) : Bool :=
  c == ' ' || c == '\t' || c == '\n' || c == '\r' || c == '\x0b' || c == '\x0c'
/-- `HH:MM:SS[,.]mmm` at the current position. -/
def matchClock (cs : List Char) : Option (TimeStamp × List Char) := do
  let (h, r1) ← digit2 cs
  let r2 ← expectChar ':' r1
  let (m, r3) ← digit2 r2
  let r4 ← expectChar ':' r3
  let (s, r5) ← digit2 r4
  let r6 ← expectSep r5
  let (ms, r7) ← digit3 r6
  pure (⟨h, m, s, ms⟩, r7)
/-- `_TIME_RE` anchored at the current position: two clocks joined by
`\s*-->\s*`. -/
def timeMatchAt (cs : List Char) : Option (TimeStamp × TimeStamp) := do
  let (t1, r1) ← matchClock cs
  let r2 := r1.dropWhile reWsChar
  let r3 ← expectChar '-' r2
  let r4 ← expectChar '-' r3
  let r5 ← expectChar '>' r4
  let r6 := r5.dropWhile reWsChar
  let (t2, _) ← matchClock r6
  pure (t1, t2)
/-- `_TIME_RE.search(line)`: leftmost match (the pattern is deterministic,
so trying each start position in order is exact regex search). -/
def timeSearch : List Char → Option (TimeStamp × TimeStamp)
  | [] => none
  | c :: rest =>
      match timeMatchAt (c :: rest) with
      | some g => some g
      | none => timeSearch rest
/-- `_TAG_RE.sub("", text)` with `_TAG_RE = <[^>]+>`: the state holds the
characters seen since an opening `<` (reversed) while a tag match is still
possible. -/
def stAux : Option (List Char) → List Char → List Char
  | none, [] => []
  | some buf, [] => '<' :: buf.reverse
  | none, c :: rest =>
      if c = '<' then stAux (some []) rest
      else c :: stAux none rest
  | some buf, c :: rest =>
      if c = '>' then
        match buf with
        | [] => '<' :: '>' :: stAux none rest
        | _ :: _ => stAux none rest
      else stAux (some (c :: buf)) rest
/-- Strip `<...>` tags, exactly as `re.sub(r"<[^>]+>", "", text)`. -/
def stripTags (cs : List Char) : List Char := stAux none cs
/-- `[ln.strip() for ln in block.strip().splitlines() if ln.strip()]`. -/
def blockLines (b : List Char) : List (List Char) :=
  ((splitlines (pyStrip b)).map pyStrip).filter fun l => !l.isEmpty
/-- Scan the lines for the first one containing a timing match, returning
the match and the line's index. -/
def firstTimeLine (i : ℕ) : List (List Char) → Option ((TimeStamp × TimeStamp) × ℕ)
  | [] => none
  | l :: ls =>
      match timeSearch l with
      | some g => some (g, i)
      | none => firstTimeLine (i + 1) ls
/-- The joined, tag-stripped, stripped text of the lines after line `i`. -/
def blockText (b : List Char) (i : ℕ) : List Char :=
  pyStrip (stripTags (List.intercalate [' '] ((blockLines b).drop (i + 1))))
/-- The per-block body of `parse_srt`'s loop: `none` models `continue`. -/
def parseBlock (b : List Char) : Option Segment :=
  if (blockLines b).length < 2 then none
  else
    match firstTimeLine 0 (blockLines b) with
    | none => none
    | some (g, i) =>
        if (blockLines b).length ≤ i + 1 then none
        else
          if (blockText b i).isEmpty then none
          else some ⟨toSeconds g.1, toSeconds g.2, ⟨blockText b i⟩⟩
/-- `parse_srt(path)` as a function of the file's text. -/
def parse_srt (raw : List Char) : List Segment :=
  (splitBlocks (pyStrip raw)).filterMap parseBlock

/-! ## Chunk-result reconciliation: `_merge_chunk_results`
(`videodigest/analyzer.py`) -/
/-- A minimal model of the Python values held in a per-chunk result
mapping; only the shapes `_merge_chunk_results` distinguishes (strings
and flat lists) are modelled, everything else can be encoded as either. -/
inductive PyVal where
  | pstr : String → PyVal
  | plist : List PyVal → PyVal
/-- A Python dict with string keys, in insertion order. -/
abbrev JDict := List (String × PyVal)
/-- `r.get(k, dflt)`. -/
def dgetD (d : JDict) (k : String) (dflt : PyVal) : PyVal :=
  match d.find? (fun p => p.1 == k) with
  | some p => p.2
  | none => dflt
/-- Is the value a Python `str`? -/
def isStr : PyVal → Bool
  | .pstr _ => true
  | _ => false
/-- The underlying string (callers check `isStr` first). -/
def strOf : PyVal → String
  | .pstr s => s
  | _ => ""
/-- Is the value a Python `list`? -/
def isList : PyVal → Bool
  | .plist _ => true
  | _ => false
/-- The underlying list (callers check `isList` first). -/
def listOf : PyVal → List PyVal
  | .plist l => l
  | _ => []
/-- `_merge_chunk_results(results, video_title)`.  A single result is
returned unchanged; otherwise the returned mapping holds exactly the
space-joined overviews and the concatenated chapters.  `none` models the
`TypeError` Python raises when a fetched `overview` is not a string or a
fetched `chapters` is not a list; `video_title` is accepted and unused,
as in the source. -/
def merge_chunk_results (results : List JDict) (_videoTitle : String) : Option JDict :=
  if results.length = 1 then results.head?
  else
    let ovs := results.map fun r => dgetD r "overview" (.pstr "")
    let chs := results.map fun r => dgetD r "chapters" (.plist [])
    if ovs.all isStr && chs.all isList then
      some [("overview", .pstr (String.intercalate " " (ovs.map strOf))),
            ("chapters", .plist (chs.map listOf).flatten)]
    else none

/-! ## Concrete scenario data -/
/-- Scenario E raw model output (unescaped quotes inside a string value). -/
def rawE : String := "\x7b\"overview\": \"He said \"hi\" to me\"\x7d"
/-- Scenario E repaired output. -/
def expE : String := "\x7b\"overview\": \"He said \\\"hi\\\" to me\"\x7d"
/-- The JSON string body of the repaired overview value. -/
def ovBody : List Char := "He said \\\"hi\\\" to me".data
/-- Counterexample segment list for the window-monotonicity claim (starts
are not sorted: 0, 5, 3, 6). -/
def cexSegs : List Segment := [⟨0, 1, "a"⟩, ⟨5, 11, "b"⟩, ⟨3, 12, "c"⟩, ⟨6, 15, "d"⟩]

/-! ## Proofs -/

lemma chunkLoop_join (maxChars : ℤ) :
    ∀ (segs : List Segment) (current : List Segment) (currentChars : ℤ),
      (chunkLoop maxChars current currentChars segs).flatten = current ++ segs := by
  intro segs
  induction segs with
  | nil =>
      intro current currentChars
      by_cases h : current = [] <;> simp [chunkLoop, h]
  | cons seg rest ih =>
      intro current currentChars
      by_cases h : currentChars + segChars seg > maxChars ∧ current ≠ []
      · simp [chunkLoop, h, ih]
      · simp [chunkLoop, h, ih]

lemma segChars_pos (s : Segment) : 0 < segChars s := by
  have : (0 : ℤ) ≤ (s.text.length : ℤ) := Int.ofNat_nonneg _
  unfold segChars
  omega

/-- Every chunk emitted by `chunkLoop` either fits in the budget or is a
single (oversized) segment, provided the accumulator state does. -/
lemma chunkLoop_budget (maxChars : ℤ) :
    ∀ (segs current : List Segment) (currentChars : ℤ),
      currentChars = chunkCost current →
      (current ≠ [] → chunkCost current ≤ maxChars ∨ ∃ s, current = [s]) →
      ∀ c ∈ chunkLoop maxChars current currentChars segs,
        chunkCost c ≤ maxChars ∨ ∃ s, c = [s] ∧ maxChars < segChars s := by
  intro segs
  induction segs with
  | nil =>
      intro current currentChars hcc hinv c hc
      by_cases h : current = []
      · simp [chunkLoop, h] at hc
      · simp only [chunkLoop, if_neg h, List.mem_singleton] at hc
        subst hc
        rcases hinv h with h1 | ⟨s, rfl⟩
        · exact Or.inl h1
        · by_cases hs : chunkCost [s] ≤ maxChars
          · exact Or.inl hs
          · refine Or.inr ⟨s, rfl, ?_⟩
            simp [chunkCost] at hs ⊢
            omega
  | cons seg rest ih =>
      intro current currentChars hcc hinv c hc
      by_cases h : currentChars + segChars seg > maxChars ∧ current ≠ []
      · simp only [chunkLoop, if_pos h] at hc
        rcases List.mem_cons.mp hc with rfl | hc'
        · rcases hinv h.2 with h1 | ⟨s, rfl⟩
          · exact Or.inl h1
          · by_cases hs : chunkCost [s] ≤ maxChars
            · exact Or.inl hs
            · refine Or.inr ⟨s, rfl, ?_⟩
              simp [chunkCost] at hs ⊢
              omega
        · refine ih [seg] (segChars seg) (by simp [chunkCost]) ?_ c hc'
          intro _
          exact Or.inr ⟨seg, rfl⟩
      · simp only [chunkLoop, if_neg h] at hc
        refine ih (current ++ [seg]) (currentChars + segChars seg) ?_ ?_ c hc
        · simp [chunkCost, hcc]
        · intro _
          rcases not_and_or.mp h with h1 | h1
          · left
            have : currentChars + segChars seg ≤ maxChars := by omega
            simpa [chunkCost, hcc] using this
          · have : current = [] := not_not.mp h1
            subst this
            exact Or.inr ⟨seg, by simp⟩

/-! ## SegmentMerger: `merge_segments` (`videodigest/transcriber.py`) -/

lemma mergeLoop_eq_greedy (w : WithTop ℚ) :
    ∀ (segs : List Segment) (first : Segment) (acc : List Segment),
      mergeLoop w first.start ((acc.getLastD first).end)
          ((first :: acc).map Segment.text) segs =
        (greedyLoop w first acc segs).map chunkOf := by
  intro segs
  induction segs with
  | nil =>
      intro first acc
      simp only [mergeLoop, greedyLoop, List.map_cons, List.map_nil, chunkOf,
        List.headD_cons, List.getLastD_cons]
  | cons seg rest ih =>
      intro first acc
      by_cases h : ((seg.end - first.start : ℚ) : WithTop ℚ) ≤ w
      · simp only [mergeLoop, greedyLoop, if_pos h]
        have := ih first (acc ++ [seg])
        simpa [List.getLastD_concat] using this
      · simp only [mergeLoop, greedyLoop, if_neg h, List.map_cons]
        congr 1
        · simp only [chunkOf, List.headD_cons, List.getLastD_cons, List.map_cons]
        · exact ih seg []

/-- `merge_segments` agrees with the spec's greedy reference algorithm on
every input. -/
lemma merge_eq_greedy (segs : List Segment) (w : WithTop ℚ) :
    merge_segments segs w = (greedyGroups segs w).map chunkOf := by
  cases segs with
  | nil => rfl
  | cons s rest =>
      simpa using mergeLoop_eq_greedy w rest s []

lemma mergeLoop_length (w : WithTop ℚ) :
    ∀ (segs : List Segment) (cs ce : ℚ) (ts : List String),
      (mergeLoop w cs ce ts segs).length = mergeCount w cs segs := by
  intro segs
  induction segs with
  | nil => intro cs ce ts; rfl
  | cons seg rest ih =>
      intro cs ce ts
      by_cases h : ((seg.end - cs : ℚ) : WithTop ℚ) ≤ w
      · simp only [mergeLoop, mergeCount, if_pos h, ih]
      · simp only [mergeLoop, mergeCount, if_neg h, List.length_cons, ih]
        omega

lemma merge_segments_length (s : Segment) (rest : List Segment) (w : WithTop ℚ) :
    (merge_segments (s :: rest) w).length = mergeCount w s.start rest := by
  simp [merge_segments, mergeLoop_length]

/-- With `windowSeconds = +infinity` every subsequent segment is absorbed,
so the merge emits exactly one chunk. -/
lemma mergeCount_top (chunkStart : ℚ) :
    ∀ segs : List Segment, mergeCount ⊤ chunkStart segs = 1 := by
  intro segs
  induction segs generalizing chunkStart with
  | nil => rfl
  | cons seg rest ih => simp [mergeCount, ih]

/-- Core monotonicity argument: running the greedy merge with a larger
window, from an open chunk that started at the same or a later time, emits
at most as many chunks (and from an arbitrary open-chunk start, at most one
more chunk), provided the remaining segment starts are sorted and no
smaller than either open-chunk start. -/
lemma mergeCount_mono (w1 w2 : WithTop ℚ) (hw : w1 ≤ w2) :
    ∀ (rest : List Segment) (s1 s2 : ℚ),
      (∀ t ∈ rest, s1 ≤ t.start) → (∀ t ∈ rest, s2 ≤ t.start) →
      rest.Pairwise (fun a b => a.start ≤ b.start) →
      (s1 ≤ s2 → mergeCount w2 s2 rest ≤ mergeCount w1 s1 rest) ∧
        mergeCount w2 s2 rest ≤ mergeCount w1 s1 rest + 1 := by
  intro rest
  induction rest with
  | nil =>
      intro s1 s2 _ _ _
      refine ⟨fun _ => ?_, ?_⟩ <;> simp [mergeCount]
  | cons S rest' ih =>
      intro s1 s2 h1 h2 hsort
      have h1S : s1 ≤ S.start := h1 S (List.mem_cons_self _ _)
      have h2S : s2 ≤ S.start := h2 S (List.mem_cons_self _ _)
      have h1' : ∀ t ∈ rest', s1 ≤ t.start := fun t ht => h1 t (List.mem_cons_of_mem _ ht)
      have h2' : ∀ t ∈ rest', s2 ≤ t.start := fun t ht => h2 t (List.mem_cons_of_mem _ ht)
      have hS' : ∀ t ∈ rest', S.start ≤ t.start := fun t ht =>
        (List.pairwise_cons.mp hsort).1 t ht
      have hsort' : rest'.Pairwise (fun a b => a.start ≤ b.start) :=
        (List.pairwise_cons.mp hsort).2
      by_cases T1 : ((S.end - s1 : ℚ) : WithTop ℚ) ≤ w1 <;>
        by_cases T2 : ((S.end - s2 : ℚ) : WithTop ℚ) ≤ w2
      · -- both absorb
        simp only [mergeCount, if_pos T1, if_pos T2]
        exact ⟨fun hs => (ih s1 s2 h1' h2' hsort').1 hs, (ih s1 s2 h1' h2' hsort').2⟩
      · -- run 1 absorbs, run 2 emits
        simp only [mergeCount, if_pos T1, if_neg T2]
        constructor
        · intro hs
          -- impossible: if run 1 absorbs from an earlier start, run 2 absorbs too
          exfalso
          apply T2
          calc ((S.end - s2 : ℚ) : WithTop ℚ) ≤ ((S.end - s1 : ℚ) : WithTop ℚ) := by
                exact_mod_cast sub_le_sub_left hs S.end
            _ ≤ w1 := T1
            _ ≤ w2 := hw
        · have := (ih s1 S.start h1' hS' hsort').1 h1S
          omega
      · -- run 1 emits, run 2 absorbs
        simp only [mergeCount, if_neg T1, if_pos T2]
        have := (ih S.start s2 hS' h2' hsort').2
        exact ⟨fun _ => by omega, by omega⟩
      · -- both emit
        simp only [mergeCount, if_neg T1, if_neg T2]
        have := (ih S.start S.start hS' hS' hsort').1 (le_refl _)
        exact ⟨fun _ => by omega, by omega⟩

lemma is_duplicate_some (h : List Bool) (khs : List (Option (List Bool))) (thr : ℕ) :
    is_duplicate (some h) khs thr =
      !((khs.filterMap id).all fun k => decide (thr ≤ hamming h k)) := by
  induction khs with
  | nil => rfl
  | cons kh rest ih =>
      cases kh with
      | none => simpa [is_duplicate, List.filterMap_cons] using ih
      | some k =>
          have hdec : (decide (hamming h k < thr)) = !decide (thr ≤ hamming h k) := by
            by_cases hk : thr ≤ hamming h k
            · simp [hk, Nat.not_lt.mpr hk]
            · simp [hk, Nat.lt_of_not_le hk]
          simp only [is_duplicate, List.filterMap_cons, id, List.any_cons, List.all_cons,
            Bool.not_and, hdec]
          rw [show (rest.any fun kh => match kh with
              | none => false
              | some k => decide (hamming h k < thr)) = is_duplicate (some h) rest thr from rfl]
          rw [ih]

lemma extractLoop_eq_dedupSpec (thr maxF : ℕ) :
    ∀ (cands : List Candidate) (khs : List (Option (List Bool))) (cnt : ℕ),
      extractLoop thr maxF khs cnt cands = dedupSpec thr maxF (khs.filterMap id) cnt cands := by
  intro cands
  induction cands with
  | nil => intro khs cnt; rfl
  | cons c rest ih =>
      intro khs cnt
      by_cases hfull : maxF ≤ cnt
      · simp [extractLoop, dedupSpec, hfull]
      · cases hg : c.grab with
        | none => simp [extractLoop, dedupSpec, hfull, hg, ih]
        | some ph =>
            cases ph with
            | none =>
                have : is_duplicate none khs thr = false := rfl
                simp [extractLoop, dedupSpec, hfull, hg, this, ih, List.filterMap_append]
            | some h =>
                by_cases hdup :
                    ((khs.filterMap id).all fun k => decide (thr ≤ hamming h k)) = true
                · have hnd : is_duplicate (some h) khs thr = false := by
                    rw [is_duplicate_some, hdup]; rfl
                  simp [extractLoop, dedupSpec, hfull, hg, hnd, hdup, ih,
                    List.filterMap_append]
                · have hnd : is_duplicate (some h) khs thr = true := by
                    rw [is_duplicate_some]
                    simp [Bool.eq_false_iff.mpr hdup]
                  simp [extractLoop, dedupSpec, hfull, hg, hnd,
                    Bool.eq_false_iff.mpr hdup, ih]

lemma dedupSpec_sublist (thr maxF : ℕ) :
    ∀ (cands : List Candidate) (fps : List (List Bool)) (cnt : ℕ),
      (dedupSpec thr maxF fps cnt cands).Sublist cands := by
  intro cands
  induction cands with
  | nil => intro fps cnt; simp [dedupSpec]
  | cons c rest ih =>
      intro fps cnt
      by_cases hfull : maxF ≤ cnt
      · simp [dedupSpec, hfull]
      · cases hg : c.grab with
        | none =>
            simp only [dedupSpec, if_neg hfull, hg]
            exact (ih _ _).cons c
        | some ph =>
            cases ph with
            | none =>
                simp only [dedupSpec, if_neg hfull, hg]
                exact (ih _ _).cons₂ c
            | some h =>
                simp only [dedupSpec, if_neg hfull, hg]
                by_cases hk : (fps.all fun k => decide (thr ≤ hamming h k)) = true
                · simp only [if_pos hk]
                  exact (ih _ _).cons₂ c
                · simp only [if_neg hk]
                  exact (ih _ _).cons c

lemma floor_step (n m i : ℕ) :
    ⌊(i : ℚ) * ((n : ℚ) / (m : ℚ))⌋₊ = i * n / m := by
  rw [mul_div_assoc']
  rw [show ((i : ℚ) * n) = ((i * n : ℕ) : ℚ) by push_cast; ring]
  exact Nat.floor_div_eq_div (i * n) m

lemma select_strictMono (n m : ℕ) (hm : 0 < m) (hmn : m < n) :
    StrictMono fun i : ℕ => i * n / m := by
  apply strictMono_nat_of_lt_succ
  intro i
  have h1 : i * n / m + 1 = (i * n + m) / m := (Nat.add_div_right _ hm).symm
  have h2 : i * n + m ≤ (i + 1) * n := by
    have : (i + 1) * n = i * n + n := by ring
    omega
  calc i * n / m < i * n / m + 1 := Nat.lt_succ_self _
    _ = (i * n + m) / m := h1
    _ ≤ (i + 1) * n / m := Nat.div_le_div_right h2

lemma select_lt_n (n m i : ℕ) (hm : 0 < m) (hmn : m < n) (hi : i < m) :
    i * n / m < n := by
  rw [Nat.div_lt_iff_lt_mul hm]
  have hn : 0 < n := lt_of_le_of_lt (Nat.zero_le m) hmn
  calc i * n < m * n := by exact Nat.mul_lt_mul_of_lt_of_le hi (le_refl n) hn
    _ = n * m := Nat.mul_comm m n

lemma escLoop_false_cons (c : Char) (rest : List Char) (hc : ¬ c = '"') :
    escLoop false (c :: rest) = c :: escLoop false rest := by
  have hb : (c == '"') = false := by simpa using hc
  have h0 : escLoop false (c :: rest) = c :: escLoop (c == '"') rest := rfl
  rw [h0, hb]

lemma escLoop_pass_false (cs : List Char) (h : ∀ c ∈ cs, c ≠ '"') :
    ∀ ds, escLoop false (cs ++ ds) = cs ++ escLoop false ds := by
  induction cs with
  | nil => intro ds; rfl
  | cons c rest ih =>
      intro ds
      rw [List.cons_append, escLoop_false_cons c _ (h c (List.mem_cons_self _ _)),
        ih (fun x hx => h x (List.mem_cons_of_mem _ hx)) ds, List.cons_append]

lemma escLoop_quote_open (rest : List Char) :
    escLoop false ('"' :: rest) = '"' :: escLoop true rest := rfl

lemma escLoop_esc_pair (d : Char) (rest : List Char) :
    escLoop true ('\\' :: d :: rest) = '\\' :: d :: escLoop true rest := rfl

lemma escLoop_true_safe (c : Char) (rest : List Char) (h : safeChar c = true) :
    escLoop true (c :: rest) = c :: escLoop true rest := by
  have hc : ¬ c = '\\' := by intro h'; subst h'; simp [safeChar] at h
  have hq : ¬ c = '"' := by intro h'; subst h'; simp [safeChar] at h
  have hn : ¬ c = '\n' := by intro h'; subst h'; simp [safeChar] at h
  have hr : ¬ c = '\r' := by intro h'; subst h'; simp [safeChar] at h
  have ht : ¬ c = '\t' := by intro h'; subst h'; simp [safeChar] at h
  rcases rest with _ | ⟨d, rest'⟩
  · simp [escLoop, hc, hq, hn, hr, ht]
  · simp [escLoop, hc, hq, hn, hr, ht]

lemma strBody_pass_fuel :
    ∀ (n : ℕ) (b : List Char), b.length ≤ n → strBodyOk b = true →
      ∀ ds, escLoop true (b ++ ds) = b ++ escLoop true ds := by
  intro n
  induction n with
  | zero =>
      intro b hb _ ds
      have hb0 : b = [] := List.length_eq_zero.mp (Nat.le_zero.mp hb)
      subst hb0; rfl
  | succ n ih =>
      intro b hb hok ds
      match b with
      | [] => rfl
      | c :: rest =>
          by_cases hc : c = '\\'
          · subst hc
            match rest with
            | [] => exact absurd hok (by decide)
            | d :: rest' =>
                have hok' : strBodyOk rest' = true := hok
                have hlen : rest'.length ≤ n := by
                  simp only [List.length_cons] at hb; omega
                rw [List.cons_append, List.cons_append, escLoop_esc_pair,
                  ih rest' hlen hok' ds, List.cons_append, List.cons_append]
          · have hsafe : safeChar c = true ∧ strBodyOk rest = true := by
              rcases rest with _ | ⟨d, rest2⟩ <;> simpa [strBodyOk, hc] using hok
            have hlen : rest.length ≤ n := by
              simp only [List.length_cons] at hb; omega
            rw [List.cons_append, escLoop_true_safe c _ hsafe.1,
              ih rest hlen hsafe.2 ds, List.cons_append]

lemma strBody_pass (b : List Char) (hok : strBodyOk b = true) (ds : List Char) :
    escLoop true (b ++ ds) = b ++ escLoop true ds :=
  strBody_pass_fuel b.length b (le_refl _) hok ds

lemma escLoop_quote_close (ds : List Char) (h : laOk ds = true) :
    escLoop true ('"' :: ds) = '"' :: escLoop false ds := by
  simp [escLoop, h]

lemma dropWhile_append_of_all {p : Char → Bool} (w l : List Char)
    (h : ∀ c ∈ w, p c = true) :
    (w ++ l).dropWhile p = l.dropWhile p := by
  induction w with
  | nil => rfl
  | cons c rest ih =>
      have hc : p c = true := h c (List.mem_cons_self _ _)
      simp only [List.cons_append, List.dropWhile_cons, hc, if_pos]
      exact ih (fun x hx => h x (List.mem_cons_of_mem _ hx))

lemma laOk_ws_left (w l : List Char) (h : AllWs w) : laOk (w ++ l) = laOk l := by
  unfold laOk
  rw [dropWhile_append_of_all w l h]

lemma laOk_of_allWs (w : List Char) (h : AllWs w) : laOk w = true := by
  have := laOk_ws_left w [] h
  simpa using this

lemma laOk_comma (ds : List Char) : laOk (',' :: ds) = true := by
  simp [laOk, List.dropWhile_cons, laWsChar]

lemma laOk_rbracket (ds : List Char) : laOk (']' :: ds) = true := by
  simp [laOk, List.dropWhile_cons, laWsChar]

lemma laOk_rbrace (ds : List Char) : laOk ('}' :: ds) = true := by
  simp [laOk, List.dropWhile_cons, laWsChar]

lemma laOk_colon (ds : List Char) : laOk (':' :: ds) = true := by
  simp [laOk, List.dropWhile_cons, laWsChar]

lemma laWs_ne_quote (c : Char) (h : laWsChar c = true) : c ≠ '"' := by
  intro hc; subst hc; simp [laWsChar] at h

lemma numChar_ne_quote (c : Char) (h : numChar c = true) : c ≠ '"' := by
  intro hc; subst hc; simp [numChar, Char.isDigit] at h

lemma allWs_ne_quote (w : List Char) (hw : AllWs w) : ∀ c ∈ w, c ≠ '"' :=
  fun c hc => laWs_ne_quote c (hw c hc)

lemma jgram_pass : ∀ (k : ℕ) (cs : List Char), JGram k cs → PassMotive k cs := by
  intro k cs hg
  induction hg with
  | jnull => intro ds _; exact escLoop_pass_false _ (by decide) ds
  | jtrue => intro ds _; exact escLoop_pass_false _ (by decide) ds
  | jfalse => intro ds _; exact escLoop_pass_false _ (by decide) ds
  | jnum cs hne hall =>
      intro ds _
      exact escLoop_pass_false cs (fun c hc => numChar_ne_quote c (hall c hc)) ds
  | jstr b hb =>
      intro ds hds
      have h1 : ('"' :: (b ++ ['"'])) ++ ds = '"' :: (b ++ ('"' :: ds)) := by simp
      rw [h1, escLoop_quote_open, strBody_pass b hb ('"' :: ds),
        escLoop_quote_close ds hds]
      simp
  | jarrE w hw =>
      intro ds _
      refine escLoop_pass_false _ ?_ ds
      intro c hc
      rcases List.mem_cons.mp hc with rfl | hc'
      · decide
      rcases List.mem_append.mp hc' with h1 | h1
      · exact laWs_ne_quote c (hw c h1)
      · rw [List.mem_singleton.mp h1]; decide
  | jobjE w hw =>
      intro ds _
      refine escLoop_pass_false _ ?_ ds
      intro c hc
      rcases List.mem_cons.mp hc with rfl | hc'
      · decide
      rcases List.mem_append.mp hc' with h1 | h1
      · exact laWs_ne_quote c (hw c h1)
      · rw [List.mem_singleton.mp h1]; decide
  | jarr es _ ih =>
      intro ds
      have h1 : ('[' :: (es ++ [']'])) ++ ds = '[' :: (es ++ (']' :: ds)) := by simp
      rw [h1, escLoop_false_cons '[' _ (by decide), ih ds,
        escLoop_false_cons ']' _ (by decide)]
      simp [escLoop_false_cons ']' _ (by decide)]
  | jobj ms _ ih =>
      intro ds
      have h1 : ('{' :: (ms ++ ['}'])) ++ ds = '{' :: (ms ++ ('}' :: ds)) := by simp
      rw [h1, escLoop_false_cons '{' _ (by decide), ih ds,
        escLoop_false_cons '}' _ (by decide)]
      simp [escLoop_false_cons '}' _ (by decide)]
  | elemsLast w1 v w2 hw1 _ hw2 ihv =>
      intro ds
      have h1 : ((w1 ++ v ++ w2) ++ (']' :: ds)) = w1 ++ (v ++ (w2 ++ (']' :: ds))) := by
        simp
      rw [h1, escLoop_pass_false w1 (allWs_ne_quote w1 hw1),
        ihv (w2 ++ (']' :: ds)) (by rw [laOk_ws_left w2 _ hw2]; exact laOk_rbracket ds),
        escLoop_pass_false w2 (allWs_ne_quote w2 hw2)]
      simp
  | elemsMore w1 v w2 es hw1 _ hw2 _ ihv ihes =>
      intro ds
      have h1 : ((w1 ++ v ++ w2 ++ (',' :: es)) ++ (']' :: ds)) =
          w1 ++ (v ++ (w2 ++ (',' :: (es ++ (']' :: ds))))) := by simp
      rw [h1, escLoop_pass_false w1 (allWs_ne_quote w1 hw1),
        ihv (w2 ++ (',' :: (es ++ (']' :: ds))))
          (by rw [laOk_ws_left w2 _ hw2]; exact laOk_comma _),
        escLoop_pass_false w2 (allWs_ne_quote w2 hw2),
        escLoop_false_cons ',' _ (by decide), ihes ds,
        escLoop_false_cons ']' _ (by decide)]
      simp [escLoop_false_cons ']' _ (by decide)]
  | memLast w1 b w2 w3 v w4 hw1 hb hw2 hw3 _ hw4 ihv =>
      intro ds
      have h1 : ((w1 ++ ('"' :: (b ++ ['"'])) ++ w2 ++ (':' :: (w3 ++ v ++ w4))) ++
            ('}' :: ds)) =
          w1 ++ ('"' :: (b ++ ('"' ::
            (w2 ++ (':' :: (w3 ++ (v ++ (w4 ++ ('}' :: ds))))))))) := by simp
      rw [h1, escLoop_pass_false w1 (allWs_ne_quote w1 hw1), escLoop_quote_open,
        strBody_pass b hb,
        escLoop_quote_close _ (by rw [laOk_ws_left w2 _ hw2]; exact laOk_colon _),
        escLoop_pass_false w2 (allWs_ne_quote w2 hw2),
        escLoop_false_cons ':' _ (by decide),
        escLoop_pass_false w3 (allWs_ne_quote w3 hw3),
        ihv (w4 ++ ('}' :: ds)) (by rw [laOk_ws_left w4 _ hw4]; exact laOk_rbrace ds),
        escLoop_pass_false w4 (allWs_ne_quote w4 hw4)]
      simp
  | memMore w1 b w2 w3 v w4 ms hw1 hb hw2 hw3 _ hw4 _ ihv ihms =>
      intro ds
      have h1 : ((w1 ++ ('"' :: (b ++ ['"'])) ++ w2 ++ (':' :: (w3 ++ v ++ w4)) ++
            (',' :: ms)) ++ ('}' :: ds)) =
          w1 ++ ('"' :: (b ++ ('"' ::
            (w2 ++ (':' :: (w3 ++ (v ++ (w4 ++ (',' ::
              (ms ++ ('}' :: ds))))))))))) := by simp
      rw [h1, escLoop_pass_false w1 (allWs_ne_quote w1 hw1), escLoop_quote_open,
        strBody_pass b hb,
        escLoop_quote_close _ (by rw [laOk_ws_left w2 _ hw2]; exact laOk_colon _),
        escLoop_pass_false w2 (allWs_ne_quote w2 hw2),
        escLoop_false_cons ':' _ (by decide),
        escLoop_pass_false w3 (allWs_ne_quote w3 hw3),
        ihv (w4 ++ (',' :: (ms ++ ('}' :: ds))))
          (by rw [laOk_ws_left w4 _ hw4]; exact laOk_comma _),
        escLoop_pass_false w4 (allWs_ne_quote w4 hw4),
        escLoop_false_cons ',' _ (by decide), ihms ds,
        escLoop_false_cons '}' _ (by decide)]
      simp [escLoop_false_cons '}' _ (by decide)]

lemma pyWs_cases (c : Char) (h : pyWsChar c = true) :
    c = ' ' ∨ c = '\t' ∨ c = '\n' ∨ c = '\r' ∨ c = '\x0b' ∨ c = '\x0c' := by
  simp only [pyWsChar, Bool.or_eq_true, beq_iff_eq] at h
  tauto

lemma numChar_not_pyWs (c : Char) (h : numChar c = true) : pyWsChar c = false := by
  by_contra hb
  have hb' : pyWsChar c = true := by simpa using hb
  rcases pyWs_cases c hb' with rfl | rfl | rfl | rfl | rfl | rfl <;>
    exact absurd h (by decide)

lemma numChar_ne_btick (c : Char) (h : numChar c = true) : c ≠ btick := by
  intro hc; subst hc; exact absurd h (by decide)

lemma laWs_pyWs (c : Char) (h : laWsChar c = true) : pyWsChar c = true := by
  simp only [laWsChar, Bool.or_eq_true, beq_iff_eq] at h
  rcases h with ((rfl | rfl) | rfl) | rfl <;> decide

lemma jval_head (v : List Char) (hv : JVal v) :
    ∃ c t, v = c :: t ∧ pyWsChar c = false ∧ c ≠ btick := by
  cases hv with
  | jnull => exact ⟨'n', _, rfl, by decide, by decide⟩
  | jtrue => exact ⟨'t', _, rfl, by decide, by decide⟩
  | jfalse => exact ⟨'f', _, rfl, by decide, by decide⟩
  | jstr b hb => exact ⟨'"', _, rfl, by decide, by decide⟩
  | jarrE w hw => exact ⟨'[', _, rfl, by decide, by decide⟩
  | jarr es hes => exact ⟨'[', _, rfl, by decide, by decide⟩
  | jobjE w hw => exact ⟨'{', _, rfl, by decide, by decide⟩
  | jobj ms hms => exact ⟨'{', _, rfl, by decide, by decide⟩
  | jnum cs hne hall =>
      cases v with
      | nil => exact absurd rfl hne
      | cons c t =>
          have hc := hall c (List.mem_cons_self _ _)
          exact ⟨c, t, rfl, numChar_not_pyWs c hc, numChar_ne_btick c hc⟩

lemma jval_last (v : List Char) (hv : JVal v) :
    ∃ c, v.getLast? = some c ∧ pyWsChar c = false ∧ c ≠ btick := by
  cases hv with
  | jnull => exact ⟨'l', by decide, by decide, by decide⟩
  | jtrue => exact ⟨'e', by decide, by decide, by decide⟩
  | jfalse => exact ⟨'e', by decide, by decide, by decide⟩
  | jstr b hb =>
      refine ⟨'"', ?_, by decide, by decide⟩
      rw [show '"' :: (b ++ ['"']) = ('"' :: b) ++ ['"'] by simp, List.getLast?_concat]
  | jarrE w hw =>
      refine ⟨']', ?_, by decide, by decide⟩
      rw [show '[' :: (w ++ [']']) = ('[' :: w) ++ [']'] by simp, List.getLast?_concat]
  | jarr es hes =>
      refine ⟨']', ?_, by decide, by decide⟩
      rw [show '[' :: (es ++ [']']) = ('[' :: es) ++ [']'] by simp, List.getLast?_concat]
  | jobjE w hw =>
      refine ⟨'}', ?_, by decide, by decide⟩
      rw [show '{' :: (w ++ ['}']) = ('{' :: w) ++ ['}'] by simp, List.getLast?_concat]
  | jobj ms hms =>
      refine ⟨'}', ?_, by decide, by decide⟩
      rw [show '{' :: (ms ++ ['}']) = ('{' :: ms) ++ ['}'] by simp, List.getLast?_concat]
  | jnum cs hne hall =>
      have hmem := List.getLast_mem hne
      have hc := hall _ hmem
      refine ⟨v.getLast hne, ?_, numChar_not_pyWs _ hc, numChar_ne_btick _ hc⟩
      exact List.getLast?_eq_getLast v hne

lemma dropWhile_cons_of_neg {p : Char → Bool} (c : Char) (l : List Char)
    (h : p c = false) : (c :: l).dropWhile p = c :: l := by
  simp [List.dropWhile_cons, h]

lemma pyStrip_sandwich (w1 v w2 : List Char)
    (hw1 : ∀ c ∈ w1, pyWsChar c = true) (hw2 : ∀ c ∈ w2, pyWsChar c = true)
    (hh : ∃ c t, v = c :: t ∧ pyWsChar c = false)
    (hl : ∃ c, v.getLast? = some c ∧ pyWsChar c = false) :
    pyStrip (w1 ++ v ++ w2) = v := by
  obtain ⟨c, t, rfl, hc⟩ := hh
  obtain ⟨d, hd1, hd2⟩ := hl
  unfold pyStrip
  rw [show w1 ++ (c :: t) ++ w2 = w1 ++ ((c :: t) ++ w2) by simp,
    dropWhile_append_of_all w1 _ hw1, List.cons_append,
    dropWhile_cons_of_neg _ _ hc, ← List.cons_append, List.reverse_append,
    dropWhile_append_of_all w2.reverse _ (fun x hx => hw2 x (List.mem_reverse.mp hx))]
  have hrev : (c :: t).reverse.head? = some d := by
    rw [List.head?_reverse]; exact hd1
  obtain ⟨rt, hrt⟩ : ∃ rt, (c :: t).reverse = d :: rt := by
    cases hr : (c :: t).reverse with
    | nil => rw [hr] at hrev; exact absurd hrev (by simp)
    | cons x xs =>
        rw [hr] at hrev
        simp only [List.head?_cons, Option.some.injEq] at hrev
        exact ⟨xs, by rw [hrev]⟩
  rw [hrt, dropWhile_cons_of_neg _ _ hd2, ← hrt, List.reverse_reverse]

lemma take3_ne_fence (c : Char) (t : List Char) (hc : c ≠ btick) :
    (c :: t).take 3 ≠ [btick, btick, btick] := by
  intro h
  rw [show (3 : ℕ) = 2 + 1 from rfl, List.take_succ_cons] at h
  injection h with h1 _
  exact hc h1

lemma escape_identity_of_sandwich (w1 v w2 : List Char)
    (hw1 : AllWs w1) (hv : JVal v) (hw2 : AllWs w2) :
    escLoop false (w1 ++ v ++ w2) = w1 ++ v ++ w2 := by
  have hpass := jgram_pass 0 v hv
  have hv' : escLoop false (v ++ w2) = v ++ escLoop false w2 :=
    hpass w2 (laOk_of_allWs w2 hw2)
  have hw2' : escLoop false w2 = w2 := by
    have h0 := escLoop_pass_false w2 (allWs_ne_quote w2 hw2) []
    have h1 : escLoop false [] = [] := rfl
    simp only [h1, List.append_nil] at h0
    exact h0
  rw [show w1 ++ v ++ w2 = w1 ++ (v ++ w2) by simp,
    escLoop_pass_false w1 (allWs_ne_quote w1 hw1), hv', hw2']

lemma parse_pre_of_sandwich (w1 v w2 : List Char)
    (hw1 : AllWs w1) (hv : JVal v) (hw2 : AllWs w2) :
    parse_json_response_pre (w1 ++ v ++ w2) = v ∧ pyStrip (w1 ++ v ++ w2) = v := by
  obtain ⟨c, t, hct, hc, hcb⟩ := jval_head v hv
  obtain ⟨d, hd1, hd2, hdb⟩ := jval_last v hv
  have hstrip : pyStrip (w1 ++ v ++ w2) = v :=
    pyStrip_sandwich w1 v w2 (fun x hx => laWs_pyWs x (hw1 x hx))
      (fun x hx => laWs_pyWs x (hw2 x hx)) ⟨c, t, hct, hc⟩ ⟨d, hd1, hd2⟩
  refine ⟨?_, hstrip⟩
  have hfence1 : ¬ v.take 3 = [btick, btick, btick] := by
    rw [hct]; exact take3_ne_fence c t hcb
  have hfence2 : ¬ v.reverse.take 3 = [btick, btick, btick] := by
    have hrev : v.reverse.head? = some d := by rw [List.head?_reverse]; exact hd1
    obtain ⟨rt, hrt⟩ : ∃ rt, v.reverse = d :: rt := by
      cases hr : v.reverse with
      | nil => rw [hr] at hrev; exact absurd hrev (by simp)
      | cons x xs =>
          rw [hr] at hrev
          simp only [List.head?_cons, Option.some.injEq] at hrev
          exact ⟨xs, by rw [hrev]⟩
    rw [hrt]; exact take3_ne_fence d rt hdb
  unfold parse_json_response_pre stripFenceStart stripFenceEnd
  rw [hstrip, if_neg hfence1, if_neg hfence2]
  have h0 := jgram_pass 0 v hv [] rfl
  have h1 : escLoop false [] = [] := rfl
  simp only [h1, List.append_nil] at h0
  exact h0

/-! ## Claim theorems -/

/-- C1: for every segment list and every `maxChars ≥ 1`, concatenating the
chunks returned by `_chunk_transcript`, in order, reproduces the input
segment list exactly — nothing is dropped, split, or reordered. -/
theorem chunk_transcript_partition (segments : List Segment) (maxChars : ℤ)
    (_hmax : 1 ≤ maxChars) :
    (chunk_transcript segments maxChars).flatten = segments := by
  have h := chunkLoop_join maxChars segments [] 0
  simpa [chunk_transcript] using h

/-- Witness for C1 at a concrete input (`maxChars = 1` forces splits). -/
theorem chunk_transcript_partition_witness :
    (chunk_transcript [⟨0, 1, "ab"⟩, ⟨1, 2, "cd"⟩] 1).flatten =
      [⟨0, 1, "ab"⟩, ⟨1, 2, "cd"⟩] :=
  chunk_transcript_partition [⟨0, 1, "ab"⟩, ⟨1, 2, "cd"⟩] 1 (by decide)

/-- C2: `merge_segments` coincides, on every ordered segment list and every
window, with the spec's greedy single-pass reference algorithm: segments
are grouped greedily by the `segment.end - openChunk.start <= windowSeconds`
test, each emitted chunk takes its first absorbed segment's start, its last
absorbed segment's end and the space-joined texts, and empty input yields
empty output. -/
theorem merge_segments_spec (segments : List Segment) (w : WithTop ℚ) :
    merge_segments segments w = (greedyGroups segments w).map chunkOf ∧
      merge_segments ([] : List Segment) w = [] :=
  ⟨merge_eq_greedy segments w, rfl⟩

/-- C3: the frame dedup loop equals the spec-side reference — a
fingerprinted frame is kept iff its Hamming distance to every previously
kept fingerprint is `≥ threshold`, a fingerprint-less frame is kept
unconditionally, processing stops once `maxFrames` frames are kept — and
the kept frames form an in-order sublist of the candidates. -/
theorem extract_frames_spec (threshold maxFrames : ℕ) (candidates : List Candidate) :
    extract_frames threshold maxFrames candidates =
        dedupSpec threshold maxFrames [] 0 candidates ∧
      (extract_frames threshold maxFrames candidates).Sublist candidates := by
  have h : extract_frames threshold maxFrames candidates =
      dedupSpec threshold maxFrames [] 0 candidates := by
    have h1 := extractLoop_eq_dedupSpec threshold maxFrames candidates [] 0
    have h0 : (([] : List (Option (List Bool))).filterMap id) = [] := rfl
    rw [h0] at h1
    exact h1
  refine ⟨h, ?_⟩
  rw [h]
  exact dedupSpec_sublist threshold maxFrames candidates [] 0

/-- C7 (amended form of the budget invariant): every chunk of
`_chunk_transcript` either fits the `maxChars` budget (summing
`len(text) + 12` over its segments), or is a single oversized segment kept
alone — never dropped, never split. -/
theorem chunk_transcript_budget (segments : List Segment) (maxChars : ℤ)
    (_hmax : 1 ≤ maxChars) :
    ∀ c ∈ chunk_transcript segments maxChars,
      chunkCost c ≤ maxChars ∨ (c.length = 1 ∧ maxChars < chunkCost c) := by
  intro c hc
  have h := chunkLoop_budget maxChars segments [] 0 (by simp [chunkCost])
    (fun h => absurd rfl h) c hc
  rcases h with h | ⟨s, rfl, hs⟩
  · exact Or.inl h
  · exact Or.inr ⟨rfl, by simpa [chunkCost] using hs⟩

/-- Witness for C7 at a concrete input: a 20-character segment against
`maxChars = 1` is kept alone in an over-budget chunk. -/
theorem chunk_transcript_budget_witness :
    chunkCost [⟨0, 1, "aaaaaaaaaaaaaaaaaaaa"⟩] ≤ 1 ∨
      ([(⟨0, 1, "aaaaaaaaaaaaaaaaaaaa"⟩ : Segment)].length = 1 ∧
        1 < chunkCost [⟨0, 1, "aaaaaaaaaaaaaaaaaaaa"⟩]) :=
  chunk_transcript_budget [⟨0, 1, "aaaaaaaaaaaaaaaaaaaa"⟩] 1 (by decide)
    [⟨0, 1, "aaaaaaaaaaaaaaaaaaaa"⟩] (by decide)

/-- C6 counterexample: the claim quantifies over *every* `maxCandidates`,
but at `segmentCount = 1`, `maxCandidates = 0` the code raises
`ZeroDivisionError` (`step = n / max_candidates`) instead of returning the
empty index list of length `min(1, 0) = 0`. -/
theorem select_candidates_zero_cex : select_candidates 1 0 = none := rfl

/-- C6 (amended with `maxCandidates ≥ 1`, or the trivial
`segmentCount ≤ maxCandidates` case): `_select_candidates` returns all
indices in order when `segmentCount ≤ maxCandidates`, and otherwise the
uniform stride sample `floor(i * segmentCount / maxCandidates)`; the
output has length `min(segmentCount, maxCandidates)`, is strictly
increasing, starts at index 0 whenever `segmentCount > 0`, and never
reaches `segmentCount`. -/
theorem select_candidates_spec (n m : ℕ) (h : 1 ≤ m ∨ n ≤ m) :
    select_candidates n m = some (selOut n m) ∧
      (n ≤ m → selOut n m = List.range n) ∧
      (m < n → selOut n m = (List.range m).map fun i => i * n / m) ∧
      (selOut n m).length = min n m ∧
      (selOut n m).Chain' (· < ·) ∧
      (0 < n → (selOut n m).head? = some 0) ∧
      ((selOut n m).all fun x => decide (x < n)) = true := by
  by_cases hnm : n ≤ m
  · have hsel : select_candidates n m = some (List.range n) := by
      unfold select_candidates
      rw [if_pos hnm]
    have hout : selOut n m = List.range n := by
      unfold selOut
      rw [hsel]
      rfl
    refine ⟨by rw [hsel, hout], fun _ => hout, fun hlt => absurd hnm (not_le.mpr hlt),
      ?_, ?_, ?_, ?_⟩
    · rw [hout, List.length_range, Nat.min_eq_left hnm]
    · rw [hout]
      exact List.Pairwise.chain' (List.pairwise_lt_range n)
    · intro hn
      rw [hout]
      cases n with
      | zero => exact absurd hn (by decide)
      | succ k => rw [List.range_succ_eq_map]; rfl
    · rw [hout, List.all_eq_true]
      intro x hx
      simpa using List.mem_range.mp hx
  · have hmn : m < n := not_le.mp hnm
    have hm : 0 < m := by
      rcases h with h1 | h1
      · exact h1
      · exact absurd h1 hnm
    have hm0 : ¬ m = 0 := Nat.pos_iff_ne_zero.mp hm
    have hsel : select_candidates n m =
        some ((List.range m).map fun i : ℕ => ⌊(i : ℚ) * ((n : ℚ) / (m : ℚ))⌋₊) := by
      unfold select_candidates
      rw [if_neg hnm, if_neg hm0]
    have hfl : ((List.range m).map fun i : ℕ => ⌊(i : ℚ) * ((n : ℚ) / (m : ℚ))⌋₊) =
        (List.range m).map fun i => i * n / m := by
      refine List.map_congr_left ?_
      intro i _
      exact floor_step n m i
    have hout : selOut n m = (List.range m).map fun i => i * n / m := by
      unfold selOut
      rw [hsel, hfl]
      rfl
    have hsm : StrictMono fun i : ℕ => i * n / m := select_strictMono n m hm hmn
    refine ⟨by rw [hsel, hout]; exact congrArg some hfl, fun hle => absurd hle hnm,
      fun _ => hout,
      ?_, ?_, ?_, ?_⟩
    · rw [hout, List.length_map, List.length_range, Nat.min_eq_right (le_of_lt hmn)]
    · rw [hout]
      refine List.Pairwise.chain' ?_
      exact (List.pairwise_lt_range m).map _ (fun a b hab => hsm hab)
    · intro _
      rw [hout]
      cases m with
      | zero => exact absurd hm (by decide)
      | succ k =>
          rw [List.range_succ_eq_map]
          simp
    · rw [hout, List.all_eq_true]
      intro x hx
      rcases List.mem_map.mp hx with ⟨i, hi, rfl⟩
      simpa using select_lt_n n m i hm hmn (List.mem_range.mp hi)

/-- Witness for C6 at `segmentCount = 7`, `maxCandidates = 3`. -/
theorem select_candidates_spec_witness :
    select_candidates 7 3 = some (selOut 7 3) ∧ (selOut 7 3).length = min 7 3 :=
  ⟨(select_candidates_spec 7 3 (Or.inl (by decide))).1,
    (select_candidates_spec 7 3 (Or.inl (by decide))).2.2.2.1⟩

/-- C8: the repository's own tests (`test_m6.py`) and callers
(`cli.py`, `formatter.py`) require `_merge_chunk_results` to carry over and
deduplicate flat list fields such as `key_points`, but the code returns a
mapping holding only `overview` and `chapters` — evaluated here on the
tests' two-chunk shape: the merged mapping has no `key_points` key at
all. -/
theorem merge_chunk_results_code_eval :
    merge_chunk_results
        [[("overview", .pstr "First half."), ("key_points", .plist [.pstr "A"])],
         [("overview", .pstr "Second half."), ("key_points", .plist [.pstr "A"])]]
        "Test Video" =
      some [("overview", .pstr "First half. Second half."),
            ("chapters", .plist [])] ∧
      (List.find? (fun p => p.1 == "key_points")
          [("overview", PyVal.pstr "First half. Second half."),
           ("chapters", PyVal.plist [])]) = none :=
  ⟨rfl, rfl⟩

/-- C4: inside a string, a double quote closes the string iff the next
non-whitespace character after it is one of `, } ] :` or end-of-input
(`laOk`), and is otherwise rewritten to an escaped quote; and Scenario E:
the raw text `{"overview": "He said "hi" to me"}` repairs exactly to
`{"overview": "He said \"hi\" to me"}`, which is a valid JSON object whose
single member `overview` has a string value decoding to
`He said "hi" to me`. -/
theorem escape_json_strings_spec :
    (∀ rest : List Char,
        escLoop true ('"' :: rest) =
          if laOk rest then '"' :: escLoop false rest
          else '\\' :: '"' :: escLoop true rest) ∧
      escape_json_strings rawE = expE ∧
      JVal expE.data ∧
      expE.data =
        '{' :: (('"' :: ("overview".data ++ ['"'])) ++
          (':' :: ' ' :: ('"' :: (ovBody ++ ['"']))) ++ ['}']) ∧
      jsonUnescape ovBody = "He said \"hi\" to me".data := by
  refine ⟨?_, by decide, ?_, by decide, by decide⟩
  · intro rest
    by_cases h : laOk rest = true
    · rw [if_pos h, escLoop_quote_close rest h]
    · have hf : laOk rest = false := Bool.eq_false_iff.mpr h
      rw [if_neg h]
      simp [escLoop, hf]
  · have hb : strBodyOk ovBody = true := by decide
    have hval : JVal ('"' :: (ovBody ++ ['"'])) := JGram.jstr ovBody hb
    have hms : JGram 2 ([] ++ ('"' :: ("overview".data ++ ['"'])) ++ [] ++
        (':' :: ([' '] ++ ('"' :: (ovBody ++ ['"'])) ++ []))) :=
      JGram.memLast [] "overview".data [] [' '] ('"' :: (ovBody ++ ['"'])) []
        (by decide) (by decide) (by decide) (by decide) hval (by decide)
    have hobj := JGram.jobj _ hms
    have hshape : '{' :: (([] ++ ('"' :: ("overview".data ++ ['"'])) ++ [] ++
        (':' :: ([' '] ++ ('"' :: (ovBody ++ ['"'])) ++ []))) ++ ['}']) =
        expE.data := by decide
    exact hshape ▸ hobj

/-- C5 counterexample: on a segment list whose starts are *not*
chronologically sorted (0, 5, 3, 6), with windows 10 ≤ 11 both at least
the maximum segment duration (9), the larger window produces *more*
chunks (3 against 2), so the chunk count is not monotone as claimed for
arbitrary segment lists. -/
theorem merge_window_monotone_cex :
    ((10 : ℚ) : WithTop ℚ) ≤ ((11 : ℚ) : WithTop ℚ) ∧
      (cexSegs.all fun s => decide (s.duration ≤ (10 : ℚ))) = true ∧
      cexSegs ≠ [] ∧
      (merge_segments cexSegs ((10 : ℚ) : WithTop ℚ)).length = 2 ∧
      (merge_segments cexSegs ((11 : ℚ) : WithTop ℚ)).length = 3 := by
  refine ⟨by decide, ?_, by decide, ?_, ?_⟩
  · simp only [cexSegs, List.all_cons, List.all_nil, Bool.and_eq_true,
      decide_eq_true_eq, Segment.duration]
    norm_num
  · rw [show cexSegs = (⟨0, 1, "a"⟩ : Segment) ::
        [⟨5, 11, "b"⟩, ⟨3, 12, "c"⟩, ⟨6, 15, "d"⟩] from rfl, merge_segments_length]
    norm_num [mergeCount, WithTop.coe_le_coe]
    decide
  · rw [show cexSegs = (⟨0, 1, "a"⟩ : Segment) ::
        [⟨5, 11, "b"⟩, ⟨3, 12, "c"⟩, ⟨6, 15, "d"⟩] from rfl, merge_segments_length]
    norm_num [mergeCount, WithTop.coe_le_coe]
    decide

/-- C5 (amended): merging *any* non-empty segment list with
`windowSeconds = +infinity` yields exactly one chunk; and if additionally
the input's starts are chronologically sorted and `w1 ≤ w2` are both at
least every segment's duration, the chunk count with `w2` is at most the
chunk count with `w1`. -/
theorem merge_segments_window_monotone (segments : List Segment) (w1 w2 : WithTop ℚ)
    (hne : segments ≠ []) :
    (merge_segments segments ⊤).length = 1 ∧
      ((segments.Pairwise fun a b => a.start ≤ b.start) → w1 ≤ w2 →
        (∀ s ∈ segments, ((s.duration : ℚ) : WithTop ℚ) ≤ w1) →
        (merge_segments segments w2).length ≤ (merge_segments segments w1).length) := by
  match segments, hne with
  | s :: rest, _ =>
      constructor
      · rw [merge_segments_length]
        exact mergeCount_top s.start rest
      · intro hsorted hw _hdur
        rw [merge_segments_length, merge_segments_length]
        have hp := List.pairwise_cons.mp hsorted
        exact (mergeCount_mono w1 w2 hw rest s.start s.start hp.1 hp.1 hp.2).1
          (le_refl _)

/-- Witness for C5 at a concrete sorted input with windows 2 ≤ 3: both
the `+infinity` conjunct and the discharged monotonicity conjunct. -/
theorem merge_segments_window_monotone_witness :
    (merge_segments [⟨0, 1, "a"⟩, ⟨2, 3, "b"⟩] ⊤).length = 1 ∧
      (merge_segments [⟨0, 1, "a"⟩, ⟨2, 3, "b"⟩] ((3 : ℚ) : WithTop ℚ)).length ≤
        (merge_segments [⟨0, 1, "a"⟩, ⟨2, 3, "b"⟩] ((2 : ℚ) : WithTop ℚ)).length :=
  ⟨(merge_segments_window_monotone [⟨0, 1, "a"⟩, ⟨2, 3, "b"⟩]
      ((2 : ℚ) : WithTop ℚ) ((3 : ℚ) : WithTop ℚ) (by decide)).1,
    (merge_segments_window_monotone [⟨0, 1, "a"⟩, ⟨2, 3, "b"⟩]
      ((2 : ℚ) : WithTop ℚ) ((3 : ℚ) : WithTop ℚ) (by decide)).2
      (by decide) (by decide)
      (by
        intro s hs
        fin_cases hs <;> rw [WithTop.coe_le_coe] <;> norm_num [Segment.duration])⟩

lemma parseBlock_inv (b : List Char) (seg : Segment) (hpb : parseBlock b = some seg) :
    seg.text ≠ "" ∧ ∃ g i, firstTimeLine 0 (blockLines b) = some (g, i) ∧
      seg.start = toSeconds g.1 ∧ seg.end = toSeconds g.2 := by
  unfold parseBlock at hpb
  split at hpb
  · exact absurd hpb (by simp)
  · split at hpb
    · exact absurd hpb (by simp)
    · rename_i g i heq
      split at hpb
      · exact absurd hpb (by simp)
      · split at hpb
        · exact absurd hpb (by simp)
        · rename_i hlen htext
          rw [Option.some.injEq] at hpb
          subst hpb
          refine ⟨?_, g, i, heq, rfl, rfl⟩
          intro hmk
          apply htext
          have : blockText b i = [] := congrArg String.data hmk
          rw [this]
          rfl

/-- C9 counterexample: a caption block whose timing line has its right
timestamp earlier than its left one is parsed into a segment with
`end < start` — `parse_srt` never checks the invariant the claim asserts
for every caption input. -/
theorem parse_srt_reversed_cex :
    parse_srt ("1\n00:00:10,000 --> 00:00:05,000\nHi".data) =
        [⟨toSeconds ⟨0, 0, 10, 0⟩, toSeconds ⟨0, 0, 5, 0⟩, "Hi"⟩] ∧
      toSeconds ⟨0, 0, 5, 0⟩ < toSeconds ⟨0, 0, 10, 0⟩ :=
  ⟨rfl, by norm_num [toSeconds]⟩

/-- C9 (amended): every segment returned by `parse_srt` has non-empty
text, for *every* caption input; and `end >= start` holds for every
returned segment provided each block's matched timing pair is ordered
(left timestamp at most the right one) — that half alone fails on
reversed timing pairs. -/
theorem parse_srt_invariants (raw : List Char) :
    ∀ seg ∈ parse_srt raw,
      seg.text ≠ "" ∧
        ((∀ b ∈ splitBlocks (pyStrip raw), ∀ g i,
            firstTimeLine 0 (blockLines b) = some (g, i) →
              toSeconds g.1 ≤ toSeconds g.2) →
          seg.start ≤ seg.end) := by
  intro seg hseg
  rcases List.mem_filterMap.mp hseg with ⟨b, hb, hpb⟩
  obtain ⟨htext, g, i, heq, hs, he⟩ := parseBlock_inv b seg hpb
  refine ⟨htext, ?_⟩
  intro hord
  rw [hs, he]
  exact hord b hb g i heq

/-- Witness for C9 at a concrete well-formed SRT block: both the
unconditional non-empty-text conjunct and the discharged ordered-timing
conjunct. -/
theorem parse_srt_invariants_witness :
    (⟨toSeconds ⟨0, 0, 0, 0⟩, toSeconds ⟨0, 0, 3, 500⟩, "Hello"⟩ : Segment).text ≠ "" ∧
      (⟨toSeconds ⟨0, 0, 0, 0⟩, toSeconds ⟨0, 0, 3, 500⟩, "Hello"⟩ : Segment).start ≤
        (⟨toSeconds ⟨0, 0, 0, 0⟩, toSeconds ⟨0, 0, 3, 500⟩, "Hello"⟩ : Segment).end :=
  have hmem : (⟨toSeconds ⟨0, 0, 0, 0⟩, toSeconds ⟨0, 0, 3, 500⟩, "Hello"⟩ : Segment) ∈
      parse_srt ("1\n00:00:00,000 --> 00:00:03,500\nHello".data) := by
    rw [show parse_srt ("1\n00:00:00,000 --> 00:00:03,500\nHello".data) =
        [⟨toSeconds ⟨0, 0, 0, 0⟩, toSeconds ⟨0, 0, 3, 500⟩, "Hello"⟩] from rfl]
    exact List.mem_singleton.mpr rfl
  ⟨(parse_srt_invariants ("1\n00:00:00,000 --> 00:00:03,500\nHello".data) _ hmem).1,
    (parse_srt_invariants ("1\n00:00:00,000 --> 00:00:03,500\nHello".data) _ hmem).2
      (by
        intro b hb g i heq
        rw [show splitBlocks (pyStrip ("1\n00:00:00,000 --> 00:00:03,500\nHello".data)) =
            ["1\n00:00:00,000 --> 00:00:03,500\nHello".data] from rfl] at hb
        rw [List.mem_singleton.mp hb] at heq
        rw [show firstTimeLine 0
            (blockLines ("1\n00:00:00,000 --> 00:00:03,500\nHello".data)) =
            some ((⟨0, 0, 0, 0⟩, ⟨0, 0, 3, 500⟩), 1) from rfl] at heq
        rw [Option.some.injEq] at heq
        injection heq with hg hi
        rw [← hg]
        norm_num [toSeconds])⟩

/-- C10: on every syntactically valid JSON document (a value surrounded
by optional whitespace), the string-repair pass is the identity, and the
fence-stripping / repair stages of `_parse_json_response` hand the
standard JSON parser exactly the stripped original document — which still
represents the same JSON value — so the parse result is exactly what a
standard parser yields. -/
theorem parse_json_response_identity (w1 v w2 : List Char)
    (hw1 : AllWs w1) (hv : JVal v) (hw2 : AllWs w2) :
    escLoop false (w1 ++ v ++ w2) = w1 ++ v ++ w2 ∧
      parse_json_response_pre (w1 ++ v ++ w2) = pyStrip (w1 ++ v ++ w2) ∧
      pyStrip (w1 ++ v ++ w2) = v ∧ JVal (pyStrip (w1 ++ v ++ w2)) := by
  obtain ⟨hpre, hstrip⟩ := parse_pre_of_sandwich w1 v w2 hw1 hv hw2
  refine ⟨escape_identity_of_sandwich w1 v w2 hw1 hv hw2, ?_, hstrip, ?_⟩
  · rw [hpre, hstrip]
  · rw [hstrip]
    exact hv

/-- Witness for C10 on the document `" true\n"`. -/
theorem parse_json_response_identity_witness :
    escLoop false ((' ' :: []) ++ "true".data ++ ('\n' :: [])) =
        (' ' :: []) ++ "true".data ++ ('\n' :: []) ∧
      parse_json_response_pre ((' ' :: []) ++ "true".data ++ ('\n' :: [])) =
        pyStrip ((' ' :: []) ++ "true".data ++ ('\n' :: [])) :=
  have hv : JVal ("true".data) := by
    rw [show "true".data = 't' :: 'r' :: 'u' :: 'e' :: [] from rfl]
    exact JGram.jtrue
  ⟨(parse_json_response_identity (' ' :: []) "true".data ('\n' :: [])
      (by decide) hv (by decide)).1,
    (parse_json_response_identity (' ' :: []) "true".data ('\n' :: [])
      (by decide) hv (by decide)).2.1⟩

end VideoDigest
